import Mathlib

/-!
Verification of the site crawler in `app.py` (body-only, sectioned output).

The development shallowly embeds the crawler at the parse-tree level:
HTML documents are modelled as trees of element and text nodes, mirroring
what BeautifulSoup with the `html.parser` backend hands the Python code
(tag names already lowercased by the parser, comments and doctypes absent).
Pure string helpers model the CPython `str` and `re` operations that the
source uses on ASCII input; `urllib.parse` operations are modelled for
URLs without `;params` and without dot-segment resolution, which none of
the verified properties exercise.
-/

namespace Crawler

/-- Python whitespace characters recognised by `str.strip` and `re` `\s`
(ASCII range, which is all the source ever feeds them). -/
def isPySpace (c : Char) : Bool :=
  c = ' ' || c = '\t' || c = '\n' || c = '\r' || c = '\x0b' || c = '\x0c'

/-- Models Python `str.strip()`: drop leading and trailing whitespace. -/
def pyStrip (s : String) : String :=
  ⟨((s.toList.dropWhile isPySpace).reverse.dropWhile isPySpace).reverse⟩

/-- Helper for `collapseWs`: the boolean records whether the previously
emitted character was the collapsed space of a whitespace run. -/
def collapseAux : List Char → Bool → List Char
  | [], _ => []
  | c :: cs, prevSpace =>
    if isPySpace c then
      if prevSpace then collapseAux cs true
      else ' ' :: collapseAux cs true
    else c :: collapseAux cs false

/-- Models `re.sub(r"\s+", " ", s)`: each maximal whitespace run becomes
a single space. -/
def collapseWs (s : String) : String := ⟨collapseAux s.toList false⟩

/-- ASCII lowering of one character (table form), used to model
`str.lower()` on the ASCII input the source feeds it. -/
def lowerChar (c : Char) : Char :=
  match c with
  | 'A' => 'a' | 'B' => 'b' | 'C' => 'c' | 'D' => 'd' | 'E' => 'e' | 'F' => 'f'
  | 'G' => 'g' | 'H' => 'h' | 'I' => 'i' | 'J' => 'j' | 'K' => 'k' | 'L' => 'l'
  | 'M' => 'm' | 'N' => 'n' | 'O' => 'o' | 'P' => 'p' | 'Q' => 'q' | 'R' => 'r'
  | 'S' => 's' | 'T' => 't' | 'U' => 'u' | 'V' => 'v' | 'W' => 'w' | 'X' => 'x'
  | 'Y' => 'y' | 'Z' => 'z' | c => c

/-- Models `str.lower()` (ASCII input). -/
def pyLower (s : String) : String := ⟨s.toList.map lowerChar⟩

/-- Models `str.startswith(pre)`. -/
def strStarts (s pre : String) : Bool := pre.toList.isPrefixOf s.toList

/-- Models `sep.join(items)`. -/
def joinSep (sep : String) : List String → String
  | [] => ("")
  | [x] => x
  | x :: y :: xs => x ++ sep ++ joinSep sep (y :: xs)

/-! ## URL model (`urllib.parse`) -/

/-- Characters allowed in a URL scheme after the first letter. -/
def schemeChar (c : Char) : Bool :=
  c.isAlpha || c.isDigit || c = '+' || c = '-' || c = '.'

/-- Models the scheme split performed by `urllib.parse.urlsplit`: a scheme
is present when the URL starts with a letter followed by scheme characters
up to a colon.  Returns the scheme characters and the remainder after the
colon. -/
def splitSchemeL (cs : List Char) : Option (List Char × List Char) :=
  match cs with
  | [] => none
  | c :: _ =>
    if c.isAlpha then
      let pre := cs.takeWhile schemeChar
      match cs.drop pre.length with
      | ':' :: r => some (pre, r)
      | _ => none
    else none

/-- The part of the URL after the scheme marker, or the whole URL when no
scheme is present. -/
def afterScheme (url : String) : List Char :=
  match splitSchemeL url.toList with
  | some (_, r) => r
  | none => url.toList

/-- Models `urlparse(url).scheme` (lowercased by `urlsplit`). -/
def schemeOf (url : String) : String :=
  match splitSchemeL url.toList with
  | some (p, _) => pyLower ⟨p⟩
  | none => ("")

/-- A character that terminates the network-location component. -/
def netlocEnd (c : Char) : Bool := c = '/' || c = '?' || c = '#'

/-- Models `urlparse(url).netloc`: present only after a `//` marker,
running to the next `/`, `?` or `#`.  Case is preserved, exactly as in
`urllib.parse`. -/
def netlocOf (url : String) : String :=
  match afterScheme url with
  | '/' :: '/' :: r => ⟨r.takeWhile (fun c => !(netlocEnd c))⟩
  | _ => ("")

/-- The characters following the network location (path, query, fragment). -/
def restAfterNetloc (url : String) : List Char :=
  match afterScheme url with
  | '/' :: '/' :: r => r.dropWhile (fun c => !(netlocEnd c))
  | r => r

/-- Models `urlparse(url).path` for URLs without `;params`. -/
def pathOf (url : String) : String :=
  ⟨(restAfterNetloc url).takeWhile (fun c => !(c = '?' || c = '#'))⟩

/-- Everything before the first `#`. -/
def takeUntilHash : List Char → List Char
  | [] => []
  | c :: cs => if c = '#' then [] else c :: takeUntilHash cs

/-- Models `href.split("#")[0]` from `extract_links`: the prefix before the
first `#`. -/
def stripFragment (url : String) : String := ⟨takeUntilHash url.toList⟩

/-- Models `urlparse(url).query`: the part after the first `?` of the
post-netloc remainder, with the fragment (everything from the first `#`)
split off first. -/
def queryOf (url : String) : String :=
  let pq := (restAfterNetloc url).takeWhile (fun c => !(c = '#'))
  match pq.dropWhile (fun c => !(c = '?')) with
  | '?' :: r => ⟨r⟩
  | _ => ("")

/-- The schemes `urllib.parse` treats as carrying a network location
(`uses_netloc` in CPython; the empty entry of that list is unreachable
behind the nonempty-scheme test and is omitted). -/
def usesNetloc : List String :=
  [("file"), ("ftp"), ("git"), ("git+ssh"), ("gopher"), ("http"), ("https"), ("imap"),
   ("mms"), ("nfs"), ("nntp"), ("prospero"), ("rsync"), ("rtsp"), ("rtsps"), ("rtspu"),
   ("sftp"), ("shttp"), ("snews"), ("svn"), ("svn+ssh"), ("telnet"), ("wais"), ("ws"), ("wss")]

/-- The crawl engine normalization at the enqueue site,
`urlparse(link)._replace(fragment="").geturl()`: the URL is split into
scheme, netloc, path (with params), query and fragment, and reassembled by
`urlunparse` with the fragment dropped.  Reassembly canonicalizes: the
scheme comes out lowercased, empty `?`/`#` delimiters are dropped, and the
`//` marker is regenerated from the components per the `uses_netloc`
rules of CPython 3.11. -/
def normalize (url : String) : String :=
  let scheme := schemeOf url
  let netloc := netlocOf url
  let path := pathOf url
  let query := queryOf url
  let u1 :=
    if netloc ≠ ("") ∨ (scheme ≠ ("") ∧ scheme ∈ usesNetloc ∧ strStarts path ("//") = false) then
      ("//") ++ netloc ++ (if path ≠ ("") ∧ strStarts path ("/") = false then ("/") ++ path else path)
    else path
  let u2 := if scheme ≠ ("") then scheme ++ (":") ++ u1 else u1
  if query ≠ ("") then u2 ++ ("?") ++ query else u2

/-- The site root `{scheme}://{netloc}` with the path cut back to the last
slash, used as the resolution base for path-relative references; a base with
an empty path resolves from `/`, per `urljoin`. -/
def dirOf (base : String) : String :=
  let root := schemeOf base ++ ("://") ++ netlocOf base
  let p := (pathOf base).toList
  if p.contains '/' then root ++ ⟨(p.reverse.dropWhile (fun c => !(c = '/'))).reverse⟩
  else root ++ ("/")

/-- Models `urllib.parse.urljoin(base, url)` for the shapes the crawler
produces: URLs carrying their own scheme are returned unchanged, `//`
URLs adopt the base scheme, rooted paths resolve against the base origin,
and other references resolve against the directory of the base path
(dot-segment normalization elided; the crawler never emits dot segments). -/
def urljoin (base url : String) : String :=
  if url = ("") then base
  else if (splitSchemeL url.toList).isSome then url
  else
    match url.toList with
    | '/' :: '/' :: _ => schemeOf base ++ (":") ++ url
    | '/' :: _ => schemeOf base ++ ("://") ++ netlocOf base ++ url
    | _ => dirOf base ++ url

/-- `is_same_domain` from `app.py`: a link without a network location is
same-domain; otherwise the netloc must equal the base netloc exactly. -/
def is_same_domain (base_netloc link : String) : Bool :=
  let n := netlocOf link
  if n = ("") then true else n == base_netloc

/-! ## HTML parse trees -/

mutual
/-- A node of the BeautifulSoup parse tree: an element with tag name,
attributes and children, or a bare text node. -/
inductive Node where
  | elem (name : String) (attrs : List (String × String)) (children : NodeList)
  | text (s : String)
/-- A sibling list of parse-tree nodes. -/
inductive NodeList where
  | nil
  | cons (n : Node) (ns : NodeList)
end

/-- Build a `NodeList` from a `List Node` (convenience for examples). -/
def nl : List Node → NodeList
  | [] => .nil
  | n :: ns => .cons n (nl ns)

/-- The descendant text fragments of a sibling list, in document order
(the stream `get_text` walks). -/
def childStrings : NodeList → List String
  | .nil => []
  | .cons (.text s) ns => s :: childStrings ns
  | .cons (.elem _ _ cs) ns => childStrings cs ++ childStrings ns

/-- The text fragments of one node. -/
def nodeStrings : Node → List String
  | .text s => [s]
  | .elem _ _ cs => childStrings cs

/-- Models `tag.get_text(separator=" ", strip=True)`: each descendant
string is stripped, empties are dropped, the rest joined by one space. -/
def getTextSepStrip (n : Node) : String :=
  joinSep (" ") (((nodeStrings n).map pyStrip).filter (fun t => !(t == (""))))

/-- Models `tag.get_text(strip=True)` (default empty separator). -/
def getTextStrip (n : Node) : String :=
  joinSep ("") (((nodeStrings n).map pyStrip).filter (fun t => !(t == (""))))

/-- The tags `_clean_tag` removes from the subtree. -/
def isBadTag (name : String) : Bool :=
  name ∈ [("script"), ("style"), ("noscript"), ("iframe")]

/-- Models `_clean_tag` on a sibling list: every `script`, `style`,
`noscript` and `iframe` element, at any depth, is decomposed (removed with
its whole subtree). -/
def cleanChildren : NodeList → NodeList
  | .nil => .nil
  | .cons (.text s) ns => .cons (.text s) (cleanChildren ns)
  | .cons (.elem name a cs) ns =>
    if isBadTag name then cleanChildren ns
    else .cons (.elem name a (cleanChildren cs)) (cleanChildren ns)

/-- Models `tag.find_all("li")` over the descendants of a sibling list:
all `li` elements in document order, including nested ones. -/
def liChildren : NodeList → List Node
  | .nil => []
  | .cons (.text _) ns => liChildren ns
  | .cons (.elem name a cs) ns =>
    (if name = ("li") then [Node.elem name a cs] else []) ++ liChildren cs ++ liChildren ns

/-- Models `soup.find("body")`: the first `body` element in pre-order,
returning its children. -/
def bodySearch : NodeList → Option NodeList
  | .nil => none
  | .cons (.text _) ns => bodySearch ns
  | .cons (.elem name _ cs) ns =>
    if name = ("body") then some cs
    else
      match bodySearch cs with
      | some r => some r
      | none => bodySearch ns

/-- Models `soup.body.find(re.compile(r"^h[1-2]$", re.I))`: the first
`h1` or `h2` element in pre-order among the descendants. -/
def h12Search : NodeList → Option Node
  | .nil => none
  | .cons (.text _) ns => h12Search ns
  | .cons (.elem name a cs) ns =>
    if name = ("h1") || name = ("h2") then some (Node.elem name a cs)
    else
      match h12Search cs with
      | some r => some r
      | none => h12Search ns

/-! ## Body sectioning -/

/-- One output section: the heading that opened it and its joined content. -/
structure SectionRec where
  heading : String
  content : String
deriving DecidableEq, Repr

/-- The accumulation state of the sectioning loop: current heading, the
pending text fragments, and the sections already flushed. -/
structure SecState where
  heading : String
  lines : List String
  secs : List SectionRec
deriving DecidableEq, Repr

/-- Tags whose text `_elem_to_text` collects (content containers). -/
def contentTags : List String :=
  [("p"), ("div"), ("section"), ("article"), ("ul"), ("ol"), ("address")]

/-- Tags skipped by the sectioning loop as top-level boilerplate. -/
def boilerTags : List String :=
  [("nav"), ("footer"), ("header"), ("form"), ("script"), ("style")]

/-- Models `re.match(r"h[1-4]$", tag_name)`. -/
def isHeading14 (s : String) : Bool :=
  s ∈ [("h1"), ("h2"), ("h3"), ("h4")]

/-- Models `_elem_to_text`: lists become `"- "`-prefixed lines joined by
newlines; anything else becomes its collapsed, stripped text. -/
def elemToText (n : Node) : String :=
  match n with
  | .elem name _ cs =>
    if pyLower name = ("ul") || pyLower name = ("ol") then
      pyStrip (joinSep ("\n")
        ((((liChildren cs).map getTextSepStrip).filter (fun t => !(t == ("")))).map
          (fun t => ("- ") ++ collapseWs t)))
    else pyStrip (collapseWs (getTextSepStrip n))
  | .text _ => pyStrip (collapseWs (getTextSepStrip n))

/-- Joining rule for a section body: drop empty fragments, separate the
rest with blank lines. -/
def joinLines (lines : List String) : String :=
  joinSep ("\n\n") (lines.filter (fun l => !(l == (""))))

/-- Flush the accumulated fragments into a completed section, but only
when some fragment was accumulated. -/
def flushSection (st : SecState) : List SectionRec :=
  if st.lines.isEmpty then st.secs
  else st.secs ++ [⟨st.heading, joinLines st.lines⟩]

/-- One iteration of the `for child in body.children` loop of
`extract_body_sections`. -/
def sectionStep (st : SecState) (child : Node) : SecState :=
  match child with
  | .text s =>
    let txt := pyStrip s
    if txt = ("") then st else { st with lines := st.lines ++ [collapseWs txt] }
  | .elem name a cs =>
    let tag_name := pyLower name
    if isHeading14 tag_name then
      { heading := getTextSepStrip (.elem name a cs), lines := [], secs := flushSection st }
    else if tag_name ∈ contentTags then
      let txt := elemToText (.elem name a cs)
      if txt = ("") then st else { st with lines := st.lines ++ [txt] }
    else if tag_name ∈ boilerTags then st
    else
      let txt := getTextSepStrip (.elem name a cs)
      if txt = ("") then st else { st with lines := st.lines ++ [collapseWs txt] }

/-- The sectioning loop over the direct children of the body. -/
def sectionFold : SecState → NodeList → SecState
  | st, .nil => st
  | st, .cons c ns => sectionFold (sectionStep st c) ns

/-- The children of the body subtree: `soup.body or soup`. -/
def bodyOf (doc : NodeList) : NodeList :=
  match bodySearch doc with
  | some cs => cs
  | none => doc

/-- Sectioning of a body child list: clean the subtree, run the loop,
flush the remainder.  This is `extract_body_sections` before its
empty-result fallback. -/
def sectionsOfBodyChildren (cs : NodeList) : List SectionRec :=
  flushSection (sectionFold ⟨("Intro"), [], []⟩ (cleanChildren cs))

/-- The sections produced for a document before the fallback. -/
def rawSections (doc : NodeList) : List SectionRec :=
  sectionsOfBodyChildren (bodyOf doc)

/-- `extract_body_sections` from `app.py`. -/
def extract_body_sections (doc : NodeList) : List SectionRec :=
  let s := rawSections doc
  if s.isEmpty then [⟨("Intro"), ("")⟩] else s

/-! ## Link extraction -/

/-- Models `soup.find_all("a", href=True)`: the `href` attribute values of
all anchor elements carrying one, in document order.  `tag.get` returns
the first binding of the attribute. -/
def anchorHrefs : NodeList → List String
  | .nil => []
  | .cons (.text _) ns => anchorHrefs ns
  | .cons (.elem name a cs) ns =>
    (if name = ("a") then
      match a.find? (fun p => p.1 == ("href")) with
      | some p => [p.2]
      | none => []
    else []) ++ anchorHrefs cs ++ anchorHrefs ns

/-- `a.get("href").split("#")[0].strip()` from `extract_links`. -/
def cleanHref (h : String) : String := pyStrip (stripFragment h)

/-- The scheme filter of `extract_links`. -/
def nonNavigable (href : String) : Bool :=
  strStarts href ("mailto:") || strStarts href ("tel:") || strStarts href ("javascript:")

/-- One `links.add(urljoin(base_url, href))` step, with the preceding
filters; the accumulator models the Python set by first-occurrence
insertion order. -/
def addLink (base_url : String) (acc : List String) (h : String) : List String :=
  let href := cleanHref h
  if href = ("") then acc
  else if nonNavigable href then acc
  else
    let u := urljoin base_url href
    if u ∈ acc then acc else acc ++ [u]

/-- `extract_links` from `app.py`. -/
def extract_links (doc : NodeList) (base_url : String) : List String :=
  (anchorHrefs doc).foldl (addLink base_url) []

/-! ## Crawl engine -/

/-- One crawled page record, as assembled at the `results.append` site. -/
structure PageResult where
  url : String
  title : String
  path : String
  sections : List SectionRec
deriving DecidableEq, Repr

/-- The title extraction of `crawl_site`: first `h1`/`h2` inside the body
of a fresh parse, falling back to the netloc of the URL. -/
def titleOf (doc : NodeList) (url : String) : String :=
  let t :=
    match bodySearch doc with
    | some cs =>
      match h12Search cs with
      | some h => getTextStrip h
      | none => ("")
    | none => ("")
  if t = ("") then netlocOf url else t

/-- The record appended for a successfully fetched page. -/
def pageRecord (url : String) (doc : NodeList) : PageResult :=
  { url := url
    title := titleOf doc url
    path := let p := pathOf url; if p = ("") then ("/") else p
    sections := extract_body_sections doc }

/-- `rp.can_fetch` under the fail-open convention: a missing policy allows
everything (the model folds the try/except fail-open into the policy
function itself). -/
def robotsAllows (rp : Option (String → Bool)) (url : String) : Bool :=
  match rp with
  | none => true
  | some f => f url

/-- The link-enqueueing loop at the bottom of `crawl_site`: same-domain
filter, fragment-stripping normalization, then insertion unless the
normalized URL is already in the visited set or the queue. -/
def enqueueLinks (base_netloc : String) (seen : List String) :
    List String → List String → List String
  | queue, [] => queue
  | queue, l :: ls =>
    if is_same_domain base_netloc l then
      let norm := normalize l
      if norm ∈ seen ∨ norm ∈ queue then enqueueLinks base_netloc seen queue ls
      else enqueueLinks base_netloc seen (queue ++ [norm]) ls
    else enqueueLinks base_netloc seen queue ls

/-- The `while to_visit and len(results) < max_pages` loop of `crawl_site`.
The robots policy and the composition of HTTP fetch and HTML parse are the
two external collaborators, passed as functions; a `none` fetch result
covers network errors, timeouts, non-success statuses and empty bodies
(all of which make the code skip the URL). -/
def crawlLoop (rp : Option (String → Bool)) (fetch : String → Option NodeList)
    (base_netloc base_root : String) (max_pages : Nat) :
    List String → List String → List PageResult → List PageResult
  | [], _, results => results
  | url :: rest, seen, results =>
    if _h : results.length < max_pages then
      if url ∈ seen then
        crawlLoop rp fetch base_netloc base_root max_pages rest seen results
      else
        let seen' := url :: seen
        if robotsAllows rp url then
          match fetch url with
          | none => crawlLoop rp fetch base_netloc base_root max_pages rest seen' results
          | some doc =>
            crawlLoop rp fetch base_netloc base_root max_pages
              (enqueueLinks base_netloc seen' rest (extract_links doc base_root))
              seen' (results ++ [pageRecord url doc])
        else
          crawlLoop rp fetch base_netloc base_root max_pages rest seen' results
    else results
termination_by q _seen results => (max_pages - results.length, q.length)

/-- `crawl_site` from `app.py`. -/
def crawl_site (rp : Option (String → Bool)) (fetch : String → Option NodeList)
    (start_url : String) (max_pages : Nat) : List PageResult :=
  let base_netloc := netlocOf start_url
  let base_root := schemeOf start_url ++ ("://") ++ base_netloc
  crawlLoop rp fetch base_netloc base_root max_pages [start_url] [] []

/-! ## Concrete fixtures used by the example-level properties -/

/-- The parse of `<h1>A</h1><p>hello</p><h2>B</h2><ul><li>x</li><li>y</li></ul>`
(no explicit `body` element, so the whole soup is the body). -/
def docC4 : NodeList := nl
  [.elem ("h1") [] (nl [.text ("A")]),
   .elem ("p") [] (nl [.text ("hello")]),
   .elem ("h2") [] (nl [.text ("B")]),
   .elem ("ul") [] (nl
     [.elem ("li") [] (nl [.text ("x")]),
      .elem ("li") [] (nl [.text ("y")])])]

/-- A body whose only text sits inside a `nav` nested under a `div`. -/
def docC3 : NodeList := nl
  [.elem ("div") [] (nl [.elem ("nav") [] (nl [.text ("NAVTEXT")])])]

/-- The same body with the nested `nav` subtree removed. -/
def docC3stripped : NodeList := nl [.elem ("div") [] .nil]

/-- The parse of `<a href="mailto:a@b.com">x</a><a href="/about">y</a>`. -/
def docC6 : NodeList := nl
  [.elem ("a") [(("href"), ("mailto:a@b.com"))] (nl [.text ("x")]),
   .elem ("a") [(("href"), ("/about"))] (nl [.text ("y")])]

/-- A page whose only link is the rooted path `/a`. -/
def docLinkSlashA : NodeList := nl
  [.elem ("a") [(("href"), ("/a"))] (nl [.text ("x")])]

/-- Fake web for the duplicate-page run: the fragment-bearing seed links to
its own fragment-stripped URL. -/
def fetchC2 : String → Option NodeList := fun u =>
  if u = ("http://x.com/a#b") then some docLinkSlashA
  else if u = ("http://x.com/a") then some .nil
  else none

/-- The root page of the C9 run: links to `/dir/page.html`. -/
def docC9root : NodeList := nl [.elem ("a") [(("href"), ("/dir/page.html"))] .nil]

/-- The inner page of the C9 run: carries the path-relative href `a.html`. -/
def docC9dir : NodeList := nl [.elem ("a") [(("href"), ("a.html"))] .nil]

/-- Fake web for the relative-resolution run. -/
def fetchC9 : String → Option NodeList := fun u =>
  if u = ("http://x.com/") then some docC9root
  else if u = ("http://x.com/dir/page.html") then some docC9dir
  else if u = ("http://x.com/a.html") then some .nil
  else none

/-! ## Helper lemmas -/

theorem takeUntilHash_of_not_mem : ∀ l : List Char, '#' ∉ l → takeUntilHash l = l
  | [], _ => rfl
  | c :: cs, h => by
    have hc : ¬(c = '#') := fun e => h (e ▸ List.mem_cons_self c cs)
    simp [takeUntilHash, hc,
      takeUntilHash_of_not_mem cs (fun m => h (List.mem_cons_of_mem c m))]

theorem lowerChar_eq_hash : ∀ c : Char, lowerChar c = '#' → c = '#' := by
  intro c he
  unfold lowerChar at he
  split at he <;> simp_all

theorem takeWhile_append_not (p : Char → Bool) (a : Char) (ha : p a = false) :
    ∀ (l t : List Char), ((l ++ a :: t).takeWhile p) = l.takeWhile p
  | [], t => by simp [List.takeWhile_cons, ha]
  | c :: l, t => by
    by_cases hc : p c = true
    · simp [List.takeWhile_cons, hc, takeWhile_append_not p a ha l t]
    · simp [List.takeWhile_cons, hc]

theorem dropWhile_append_not (p : Char → Bool) (a : Char) (ha : p a = false) :
    ∀ (l t : List Char), ((l ++ a :: t).dropWhile p) = l.dropWhile p ++ a :: t
  | [], t => by simp [List.dropWhile_cons, ha]
  | c :: l, t => by
    by_cases hc : p c = true
    · simp [List.dropWhile_cons, hc, dropWhile_append_not p a ha l t]
    · simp [List.dropWhile_cons, hc]

theorem dropWhile_head_not (p : Char → Bool) :
    ∀ (l : List Char) (c : Char) (r : List Char), l.dropWhile p = c :: r → p c = false
  | [], c, r => by simp
  | a :: l, c, r => by
    by_cases ha : p a = true
    · simp only [List.dropWhile_cons, if_pos ha]
      exact dropWhile_head_not p l c r
    · simp only [List.dropWhile_cons, if_neg ha]
      intro he
      injection he with h1 _
      subst h1
      simpa using ha

theorem takeUntilHash_eq_takeWhile : ∀ l : List Char,
    takeUntilHash l = l.takeWhile (fun c => !(c = '#'))
  | [] => rfl
  | c :: cs => by
    by_cases hc : c = '#'
    · simp [takeUntilHash, hc, List.takeWhile_cons]
    · simp [takeUntilHash, hc, List.takeWhile_cons, takeUntilHash_eq_takeWhile cs]

theorem toList_append_hash (u frag : String) :
    (u ++ ("#") ++ frag).toList = u.toList ++ '#' :: frag.toList := by
  show (u ++ ("#") ++ frag).data = u.data ++ '#' :: frag.data
  simp [String.data_append]

theorem splitSchemeL_append_hash (l f : List Char) :
    splitSchemeL (l ++ '#' :: f) =
      match splitSchemeL l with
      | some pr => some (pr.1, pr.2 ++ '#' :: f)
      | none => none := by
  rcases l with _ | ⟨c, l'⟩
  · simp [splitSchemeL]
  · by_cases hc : c.isAlpha = true
    · have htw : ((c :: l') ++ '#' :: f).takeWhile schemeChar
          = (c :: l').takeWhile schemeChar :=
        takeWhile_append_not schemeChar '#' (by decide) (c :: l') f
      have hlen : ((c :: l').takeWhile schemeChar).length ≤ (c :: l').length :=
        (List.takeWhile_sublist schemeChar).length_le
      have hdrop : ((c :: l') ++ '#' :: f).drop ((c :: l').takeWhile schemeChar).length
          = (c :: l').drop ((c :: l').takeWhile schemeChar).length ++ '#' :: f :=
        List.drop_append_of_le_length hlen
      show splitSchemeL (c :: (l' ++ '#' :: f)) = _
      simp only [splitSchemeL, hc, if_true]
      rw [show c :: (l' ++ '#' :: f) = (c :: l') ++ '#' :: f from rfl, htw, hdrop]
      rcases hrem : (c :: l').drop ((c :: l').takeWhile schemeChar).length with _ | ⟨c2, r⟩
      · simp
      · by_cases hc2 : c2 = ':'
        · subst hc2; simp
        · simp [hc2]
    · show splitSchemeL (c :: (l' ++ '#' :: f)) = _
      simp [splitSchemeL, hc]

theorem afterScheme_append_hash (u frag : String) :
    afterScheme (u ++ ("#") ++ frag) = afterScheme u ++ '#' :: frag.toList := by
  unfold afterScheme
  rw [toList_append_hash, splitSchemeL_append_hash]
  rcases hs : splitSchemeL u.toList with _ | ⟨p, r⟩ <;> simp [hs]

theorem schemeOf_append_hash (u frag : String) :
    schemeOf (u ++ ("#") ++ frag) = schemeOf u := by
  unfold schemeOf
  rw [toList_append_hash, splitSchemeL_append_hash]
  rcases hs : splitSchemeL u.toList with _ | ⟨p, r⟩ <;> simp [hs]

theorem netlocOf_append_hash (u frag : String) :
    netlocOf (u ++ ("#") ++ frag) = netlocOf u := by
  unfold netlocOf
  rw [afterScheme_append_hash]
  rcases afterScheme u with _ | ⟨c1, t1⟩
  · simp
  · rcases t1 with _ | ⟨c2, t2⟩
    · by_cases h1 : c1 = '/'
      · subst h1; simp
      · simp [h1]
    · by_cases h1 : c1 = '/'
      · subst h1
        by_cases h2 : c2 = '/'
        · subst h2
          simp [takeWhile_append_not (fun c => !(netlocEnd c)) '#' (by decide)]
        · simp [h2]
      · simp [h1]

theorem restAfterNetloc_append_hash (u frag : String) :
    restAfterNetloc (u ++ ("#") ++ frag) = restAfterNetloc u ++ '#' :: frag.toList := by
  unfold restAfterNetloc
  rw [afterScheme_append_hash]
  rcases afterScheme u with _ | ⟨c1, t1⟩
  · simp
  · rcases t1 with _ | ⟨c2, t2⟩
    · by_cases h1 : c1 = '/'
      · subst h1; simp
      · simp [h1]
    · by_cases h1 : c1 = '/'
      · subst h1
        by_cases h2 : c2 = '/'
        · subst h2
          simp [dropWhile_append_not (fun c => !(netlocEnd c)) '#' (by decide)]
        · simp [h2]
      · simp [h1]

theorem pathOf_append_hash (u frag : String) :
    pathOf (u ++ ("#") ++ frag) = pathOf u := by
  unfold pathOf
  rw [restAfterNetloc_append_hash]
  exact congrArg String.mk
    (takeWhile_append_not (fun c => !(c = '?' || c = '#')) '#' (by decide) _ _)

theorem queryOf_append_hash (u frag : String) :
    queryOf (u ++ ("#") ++ frag) = queryOf u := by
  unfold queryOf
  rw [restAfterNetloc_append_hash,
    takeWhile_append_not (fun c => !(c = '#')) '#' (by decide) _ _]

theorem normalize_append_hash (u frag : String) :
    normalize (u ++ ("#") ++ frag) = normalize u := by
  unfold normalize
  rw [schemeOf_append_hash, netlocOf_append_hash, pathOf_append_hash, queryOf_append_hash]

theorem normalize_stripFragment (u : String) :
    normalize (stripFragment u) = normalize u := by
  obtain ⟨l⟩ := u
  rcases hd : l.dropWhile (fun c => !(c = '#')) with _ | ⟨c, r⟩
  · have hl : takeUntilHash l = l := by
      rw [takeUntilHash_eq_takeWhile]
      conv_rhs => rw [← List.takeWhile_append_dropWhile (fun c => !(c = '#')) l]
      rw [hd, List.append_nil]
    show normalize ⟨takeUntilHash l⟩ = normalize ⟨l⟩
    rw [hl]
  · have hc : c = '#' := by
      have := dropWhile_head_not (fun c => !(c = '#')) l c r hd
      simpa using this
    subst hc
    have hdecomp : l = l.takeWhile (fun c => !(c = '#')) ++ '#' :: r := by
      conv_lhs => rw [← List.takeWhile_append_dropWhile (fun c => !(c = '#')) l]
      rw [hd]
    have hstr : (⟨l⟩ : String)
        = (⟨l.takeWhile (fun c => !(c = '#'))⟩ ++ ("#") ++ ⟨r⟩ : String) := by
      show String.mk l = String.mk ((l.takeWhile (fun c => !(c = '#')) ++ ['#']) ++ r)
      rw [List.append_assoc, List.singleton_append, ← hdecomp]
    show normalize ⟨takeUntilHash l⟩ = normalize ⟨l⟩
    rw [takeUntilHash_eq_takeWhile]
    conv_rhs => rw [hstr]
    rw [normalize_append_hash]

theorem hash_not_mem_takeWhile (p : Char → Bool) (hp : p '#' = false) (l : List Char) :
    ('#') ∉ l.takeWhile p := by
  intro hmem
  have := List.mem_takeWhile_imp hmem
  simp [hp] at this

theorem splitSchemeL_some (cs : List Char) (p r : List Char)
    (h : splitSchemeL cs = some (p, r)) : p = cs.takeWhile schemeChar := by
  rcases cs with _ | ⟨c, cs'⟩
  · simp [splitSchemeL] at h
  · by_cases hc : c.isAlpha = true
    · simp only [splitSchemeL, hc, if_true] at h
      rcases hdrop : (c :: cs').drop ((c :: cs').takeWhile schemeChar).length
        with _ | ⟨c2, r2⟩ <;> rw [hdrop] at h
      · simp at h
      · by_cases h2 : c2 = ':'
        · subst h2
          simp at h
          exact h.1.symm
        · simp [h2] at h
    · simp [splitSchemeL, hc] at h

theorem hash_not_mem_schemeOf (u : String) : ('#') ∉ (schemeOf u).toList := by
  unfold schemeOf
  rcases hs : splitSchemeL u.toList with _ | ⟨p, r⟩
  · simp [String.toList]
  · have hp := splitSchemeL_some u.toList p r hs
    subst hp
    intro hmem
    have hmem2 : ('#') ∈ (u.toList.takeWhile schemeChar).map lowerChar := hmem
    rcases List.mem_map.mp hmem2 with ⟨c, hc, he⟩
    rcases lowerChar_eq_hash c he
    have := List.mem_takeWhile_imp hc
    exact absurd this (by decide)

theorem hash_not_mem_netlocOf (u : String) : ('#') ∉ (netlocOf u).toList := by
  unfold netlocOf
  split
  · exact hash_not_mem_takeWhile _ (by decide) _
  · simp [String.toList]

theorem hash_not_mem_pathOf (u : String) : ('#') ∉ (pathOf u).toList :=
  hash_not_mem_takeWhile _ (by decide) _

theorem hash_not_mem_queryOf (u : String) : ('#') ∉ (queryOf u).toList := by
  simp only [queryOf]
  split
  · rename_i r heq
    intro hmem
    have h1 : ('#') ∈ '?' :: r := List.mem_cons_of_mem _ hmem
    rw [← heq] at h1
    have h2 := (List.dropWhile_sublist (fun c => !(c = '?'))).subset h1
    have h3 := List.mem_takeWhile_imp h2
    simp at h3
  · simp [String.toList]

theorem hash_not_mem_append (a b : String) (ha : ('#') ∉ a.toList)
    (hb : ('#') ∉ b.toList) : ('#') ∉ (a ++ b).toList := by
  show ('#') ∉ (a ++ b).data
  simp only [String.data_append, List.mem_append]
  rintro (h | h)
  · exact ha h
  · exact hb h

theorem hash_not_mem_normalize (u : String) : ('#') ∉ (normalize u).toList := by
  have hs := hash_not_mem_schemeOf u
  have hn := hash_not_mem_netlocOf u
  have hp := hash_not_mem_pathOf u
  have hq := hash_not_mem_queryOf u
  simp only [normalize]
  repeat' split
  all_goals repeat' first
    | apply hash_not_mem_append
    | exact hs
    | exact hn
    | exact hp
    | exact hq
    | decide

theorem stripFragment_of_not_mem (u : String) (h : ('#') ∉ u.toList) :
    stripFragment u = u := by
  obtain ⟨l⟩ := u
  exact congrArg String.mk (takeUntilHash_of_not_mem l (by simpa using h))

theorem stripFragment_normalize (u : String) :
    stripFragment (normalize u) = normalize u :=
  stripFragment_of_not_mem _ (hash_not_mem_normalize u)

theorem cleanChildren_idem : ∀ ns : NodeList, cleanChildren (cleanChildren ns) = cleanChildren ns
  | .nil => rfl
  | .cons (.text s) ns => by simp [cleanChildren, cleanChildren_idem ns]
  | .cons (.elem name a cs) ns => by
    by_cases h : isBadTag name
    · simp [cleanChildren, h, cleanChildren_idem ns]
    · simp [cleanChildren, h, cleanChildren_idem ns, cleanChildren_idem cs]

theorem mem_addLink (base : String) (acc : List String) (h u : String) :
    u ∈ addLink base acc h ↔
      u ∈ acc ∨ (cleanHref h ≠ ("") ∧ nonNavigable (cleanHref h) = false ∧
        u = urljoin base (cleanHref h)) := by
  by_cases c1 : cleanHref h = ("")
  · simp [addLink, c1]
  · by_cases c2 : nonNavigable (cleanHref h)
    · simp [addLink, c1, c2]
    · by_cases c3 : urljoin base (cleanHref h) ∈ acc
      · simp only [addLink, c1, c2, c3, if_neg, if_pos, if_false, if_true,
          Bool.false_eq_true, not_false_iff, ne_eq, true_and]
        constructor
        · exact Or.inl
        · rintro (hu | ⟨_, rfl⟩)
          · exact hu
          · exact c3
      · simp [addLink, c1, c2, c3]

theorem mem_foldl_addLink (base : String) :
    ∀ (hs : List String) (acc : List String) (u : String),
      u ∈ hs.foldl (addLink base) acc ↔
        u ∈ acc ∨ ∃ h, h ∈ hs ∧ cleanHref h ≠ ("") ∧
          nonNavigable (cleanHref h) = false ∧ u = urljoin base (cleanHref h) := by
  intro hs
  induction hs with
  | nil => intro acc u; simp
  | cons h hs ih =>
    intro acc u
    rw [List.foldl_cons, ih, mem_addLink]
    constructor
    · rintro ((hu | ⟨hne, hnav, rfl⟩) | ⟨h', hh', hp⟩)
      · exact Or.inl hu
      · exact Or.inr ⟨h, List.mem_cons_self h hs, hne, hnav, rfl⟩
      · exact Or.inr ⟨h', List.mem_cons_of_mem h hh', hp⟩
    · rintro (hu | ⟨h', hh', hne, hnav, rfl⟩)
      · exact Or.inl (Or.inl hu)
      · rcases List.mem_cons.mp hh' with rfl | hh'
        · exact Or.inl (Or.inr ⟨hne, hnav, rfl⟩)
        · exact Or.inr ⟨h', hh', hne, hnav, rfl⟩

theorem nodup_addLink (base : String) (acc : List String) (h : String)
    (hn : acc.Nodup) : (addLink base acc h).Nodup := by
  by_cases c1 : cleanHref h = ("")
  · simpa [addLink, c1] using hn
  · by_cases c2 : nonNavigable (cleanHref h)
    · simpa [addLink, c1, c2] using hn
    · by_cases c3 : urljoin base (cleanHref h) ∈ acc
      · simpa [addLink, c1, c2, c3] using hn
      · have he : addLink base acc h = acc ++ [urljoin base (cleanHref h)] := by
          simp [addLink, c1, c2, c3]
        rw [he]
        simp [List.nodup_append, hn, c3]

theorem nodup_foldl_addLink (base : String) :
    ∀ (hs acc : List String), acc.Nodup → (hs.foldl (addLink base) acc).Nodup := by
  intro hs
  induction hs with
  | nil => intro acc h; simpa
  | cons h hs ih =>
    intro acc hn
    exact ih (addLink base acc h) (nodup_addLink base acc h hn)

theorem crawlLoop_length_le (rp : Option (String → Bool)) (fetch : String → Option NodeList)
    (bn br : String) (mp : Nat) :
    ∀ (q seen : List String) (results : List PageResult),
      results.length ≤ mp →
      (crawlLoop rp fetch bn br mp q seen results).length ≤ mp := by
  intro q seen results
  induction q, seen, results using crawlLoop.induct rp fetch bn br mp with
  | case1 seen results =>
    intro h
    simpa [crawlLoop] using h
  | case2 url rest seen results h1 h2 ih =>
    intro hle
    simp only [crawlLoop, dif_pos h1, if_pos h2]
    exact ih hle
  | case3 url rest seen results h1 h2 seen' h3 h4 ih =>
    intro hle
    simp only [crawlLoop, dif_pos h1, if_neg h2, if_pos h3, h4]
    exact ih hle
  | case4 url rest seen results h1 h2 seen' h3 doc h4 ih =>
    intro hle
    simp only [crawlLoop, dif_pos h1, if_neg h2, if_pos h3, h4]
    apply ih
    simp only [List.length_append, List.length_cons, List.length_nil]
    omega
  | case5 url rest seen results h1 h2 seen' h3 ih =>
    intro hle
    simp only [crawlLoop, dif_pos h1, if_neg h2, if_neg h3]
    exact ih hle
  | case6 url rest seen results h1 =>
    intro hle
    simpa only [crawlLoop, dif_neg h1] using hle

theorem crawlLoop_invariant (rp : Option (String → Bool)) (fetch : String → Option NodeList)
    (bn br : String) (mp : Nat) :
    ∀ (q seen : List String) (results : List PageResult),
      (∀ r ∈ results, robotsAllows rp r.url = true ∧
        (∃ doc, fetch r.url = some doc ∧ r = pageRecord r.url doc) ∧ r.url ∈ seen) →
      (results.map PageResult.url).Nodup →
      (∀ r ∈ crawlLoop rp fetch bn br mp q seen results,
          robotsAllows rp r.url = true ∧
          ∃ doc, fetch r.url = some doc ∧ r = pageRecord r.url doc) ∧
      ((crawlLoop rp fetch bn br mp q seen results).map PageResult.url).Nodup := by
  intro q seen results
  induction q, seen, results using crawlLoop.induct rp fetch bn br mp with
  | case1 seen results =>
    intro hinv hnd
    simp only [crawlLoop]
    exact ⟨fun r hr => ⟨(hinv r hr).1, (hinv r hr).2.1⟩, hnd⟩
  | case2 url rest seen results h1 h2 ih =>
    intro hinv hnd
    simp only [crawlLoop, dif_pos h1, if_pos h2]
    exact ih hinv hnd
  | case3 url rest seen results h1 h2 seen' h3 h4 ih =>
    intro hinv hnd
    simp only [crawlLoop, dif_pos h1, if_neg h2, if_pos h3, h4]
    exact ih (fun r hr => ⟨(hinv r hr).1, (hinv r hr).2.1,
      List.mem_cons_of_mem url (hinv r hr).2.2⟩) hnd
  | case4 url rest seen results h1 h2 seen' h3 doc h4 ih =>
    intro hinv hnd
    simp only [crawlLoop, dif_pos h1, if_neg h2, if_pos h3, h4]
    apply ih
    · intro r hr
      rcases List.mem_append.mp hr with hr | hr
      · exact ⟨(hinv r hr).1, (hinv r hr).2.1, List.mem_cons_of_mem url (hinv r hr).2.2⟩
      · have : r = pageRecord url doc := by simpa using hr
        subst this
        exact ⟨h3, ⟨doc, h4, rfl⟩, List.mem_cons_self url seen⟩
    · have hurl : url ∉ results.map PageResult.url := by
        intro hmem
        obtain ⟨r, hr, hre⟩ := List.mem_map.mp hmem
        exact h2 (hre ▸ (hinv r hr).2.2)
      simp [List.nodup_append, hnd, pageRecord, hurl]
  | case5 url rest seen results h1 h2 seen' h3 ih =>
    intro hinv hnd
    simp only [crawlLoop, dif_pos h1, if_neg h2, if_neg h3]
    exact ih (fun r hr => ⟨(hinv r hr).1, (hinv r hr).2.1,
      List.mem_cons_of_mem url (hinv r hr).2.2⟩) hnd
  | case6 url rest seen results h1 =>
    intro hinv hnd
    simp only [crawlLoop, dif_neg h1]
    exact ⟨fun r hr => ⟨(hinv r hr).1, (hinv r hr).2.1⟩, hnd⟩

theorem mem_enqueueLinks (bn : String) (seen : List String) :
    ∀ (ls q : List String) (u : String),
      u ∈ enqueueLinks bn seen q ls → u ∈ q ∨ ∃ l, l ∈ ls ∧ u = normalize l := by
  intro ls
  induction ls with
  | nil =>
    intro q u h
    exact Or.inl (by simpa [enqueueLinks] using h)
  | cons l ls ih =>
    intro q u h
    by_cases c1 : is_same_domain bn l = true
    · by_cases c2 : normalize l ∈ seen ∨ normalize l ∈ q
      · rw [enqueueLinks, if_pos c1, if_pos c2] at h
        rcases ih q u h with hq | ⟨l', hl', he⟩
        · exact Or.inl hq
        · exact Or.inr ⟨l', List.mem_cons_of_mem l hl', he⟩
      · rw [enqueueLinks, if_pos c1, if_neg c2] at h
        rcases ih (q ++ [normalize l]) u h with hq | ⟨l', hl', he⟩
        · rcases List.mem_append.mp hq with hq | hq
          · exact Or.inl hq
          · exact Or.inr ⟨l, List.mem_cons_self l ls, by simpa using hq⟩
        · exact Or.inr ⟨l', List.mem_cons_of_mem l hl', he⟩
    · rw [enqueueLinks, if_neg c1] at h
      rcases ih q u h with hq | ⟨l', hl', he⟩
      · exact Or.inl hq
      · exact Or.inr ⟨l', List.mem_cons_of_mem l hl', he⟩

theorem crawlLoop_noHash (rp : Option (String → Bool)) (fetch : String → Option NodeList)
    (bn br : String) (mp : Nat) :
    ∀ (q seen : List String) (results : List PageResult),
      (∀ u ∈ q, stripFragment u = u) →
      (∀ r ∈ results, stripFragment r.url = r.url) →
      ∀ r ∈ crawlLoop rp fetch bn br mp q seen results, stripFragment r.url = r.url := by
  intro q seen results
  induction q, seen, results using crawlLoop.induct rp fetch bn br mp with
  | case1 seen results =>
    intro _ hres
    simpa only [crawlLoop] using hres
  | case2 url rest seen results h1 h2 ih =>
    intro hq hres
    simp only [crawlLoop, dif_pos h1, if_pos h2]
    exact ih (fun u hu => hq u (List.mem_cons_of_mem url hu)) hres
  | case3 url rest seen results h1 h2 seen' h3 h4 ih =>
    intro hq hres
    simp only [crawlLoop, dif_pos h1, if_neg h2, if_pos h3, h4]
    exact ih (fun u hu => hq u (List.mem_cons_of_mem url hu)) hres
  | case4 url rest seen results h1 h2 seen' h3 doc h4 ih =>
    intro hq hres
    simp only [crawlLoop, dif_pos h1, if_neg h2, if_pos h3, h4]
    apply ih
    · intro u hu
      rcases mem_enqueueLinks bn (url :: seen) _ _ u hu with hu | ⟨l, _, rfl⟩
      · exact hq u (List.mem_cons_of_mem url hu)
      · exact stripFragment_normalize l
    · intro r hr
      rcases List.mem_append.mp hr with hr | hr
      · exact hres r hr
      · have : r = pageRecord url doc := by simpa using hr
        subst this
        simpa [pageRecord] using hq url (List.mem_cons_self url rest)
  | case5 url rest seen results h1 h2 seen' h3 ih =>
    intro hq hres
    simp only [crawlLoop, dif_pos h1, if_neg h2, if_neg h3]
    exact ih (fun u hu => hq u (List.mem_cons_of_mem url hu)) hres
  | case6 url rest seen results h1 =>
    intro _ hres
    simpa only [crawlLoop, dif_neg h1] using hres

/-! ## Claim theorems -/

/-- C4: the body HTML `<h1>A</h1><p>hello</p><h2>B</h2><ul><li>x</li><li>y</li></ul>`
yields exactly the sections `{A, hello}` and `{B, "- x\n- y"}` in order, with
no `Intro` section, list items bulleted with `"- "` and joined by single
newlines. -/
theorem claim_C4_sectioning_scenario :
    extract_body_sections docC4 = [⟨("A"), ("hello")⟩, ⟨("B"), ("- x\n- y")⟩] := by
  decide

/-- C5: the sectioner never returns an empty sequence, and when the body
yields no extractable content it returns exactly one empty `Intro`
section. -/
theorem claim_C5_at_least_one_section :
    ∀ doc : NodeList, extract_body_sections doc ≠ [] ∧
      (rawSections doc = [] → extract_body_sections doc = [⟨("Intro"), ("")⟩]) := by
  intro doc
  unfold extract_body_sections
  by_cases h : (rawSections doc).isEmpty
  · simp [h]
  · simp only [h, if_neg, Bool.false_eq_true, if_false]
    constructor
    · simpa [List.isEmpty_iff] using h
    · intro he
      simp [he] at h

theorem claim_C5_witness :
    extract_body_sections .nil ≠ [] ∧ rawSections .nil = [] ∧
      extract_body_sections .nil = [⟨("Intro"), ("")⟩] :=
  ⟨(claim_C5_at_least_one_section .nil).1, by decide,
    (claim_C5_at_least_one_section .nil).2 (by decide)⟩

/-- C7: `is_same_domain` accepts any link without a network location, and
otherwise accepts exactly the links whose netloc equals the base netloc
as a case-sensitive string; concretely, a relative path is same-domain and
a foreign host is not. -/
theorem claim_C7_same_domain :
    (∀ base link : String,
      (netlocOf link = ("") → is_same_domain base link = true) ∧
      (is_same_domain base link = true ↔ (netlocOf link = ("") ∨ netlocOf link = base))) ∧
    is_same_domain ("x.com") ("/relative/path") = true ∧
    is_same_domain ("x.com") ("http://y.com/p") = false ∧
    is_same_domain ("x.com") ("http://X.com/p") = false := by
  refine ⟨fun base link => ⟨?_, ?_⟩, by decide, by decide, by decide⟩
  · intro h; simp [is_same_domain, h]
  · by_cases h : netlocOf link = ("")
    · simp [is_same_domain, h]
    · simp [is_same_domain, h, beq_iff_eq]

theorem claim_C7_witness :
    netlocOf ("/relative/path") = ("") ∧
      is_same_domain ("x.com") ("/relative/path") = true :=
  ⟨by decide, (claim_C7_same_domain.1 ("x.com") ("/relative/path")).1 (by decide)⟩

/-- C8 (amended): the engine normalization depends only on the part of the
URL before the first `#` — appending a fragment never changes it — and it
preserves query strings; apart from the `urlsplit`/`geturl`
canonicalization (scheme lowercased, empty `?`/`#` delimiters dropped) the
URL is returned unchanged, as the identity on the canonical example shows;
in particular normalizing `http://x.com/a#b` and `http://x.com/a` agree. -/
theorem claim_C8_normalize_fragment :
    (∀ u : String, normalize (stripFragment u) = normalize u) ∧
    (∀ u frag : String, normalize (u ++ ("#") ++ frag) = normalize u) ∧
    normalize (("http://x.com/a#b")) = normalize (("http://x.com/a")) ∧
    normalize (("http://x.com/a?q=1#b")) = ("http://x.com/a?q=1") ∧
    normalize (("http://x.com/a")) = ("http://x.com/a") :=
  ⟨normalize_stripFragment, normalize_append_hash, by decide, by decide, by decide⟩

/-- C8 counterexample against the claim as stated: a fragment-free URL is
not always returned unchanged — `geturl` lowercases the scheme. -/
theorem claim_C8_counterexample :
    ('#') ∉ ("HTTP://x.com/a").toList ∧
      normalize ("HTTP://x.com/a") = ("http://x.com/a") ∧
      ¬(normalize ("HTTP://x.com/a") = ("HTTP://x.com/a")) := by
  refine ⟨by decide, by decide, by decide⟩

/-- C10: an `h5` or `h6` direct child is not a section delimiter: the
current heading and the flushed sections are unchanged, and the element is
handled by the fallback branch, appending its collapsed text when
non-empty. -/
theorem claim_C10_h5_h6_not_delimiters :
    ∀ (st : SecState) (name : String) (a : List (String × String)) (cs : NodeList),
      (name = ("h5") ∨ name = ("h6")) →
      (sectionStep st (.elem name a cs)).heading = st.heading ∧
      (sectionStep st (.elem name a cs)).secs = st.secs ∧
      sectionStep st (.elem name a cs) =
        (if getTextSepStrip (.elem name a cs) = ("") then st
         else { st with lines := st.lines ++ [collapseWs (getTextSepStrip (.elem name a cs))] }) := by
  intro st name a cs h
  have h1 : isHeading14 (pyLower name) = false := by rcases h with rfl | rfl <;> decide
  have h2 : ¬(pyLower name ∈ contentTags) := by rcases h with rfl | rfl <;> decide
  have h3 : ¬(pyLower name ∈ boilerTags) := by rcases h with rfl | rfl <;> decide
  by_cases htxt : getTextSepStrip (Node.elem name a cs) = ("") <;>
    simp [sectionStep, h1, h2, h3, htxt]

theorem claim_C10_witness :
    (sectionStep ⟨("Intro"), [], []⟩ (.elem ("h5") [] (nl [.text ("T")]))).heading = ("Intro") ∧
      (sectionStep ⟨("Intro"), [], []⟩ (.elem ("h5") [] (nl [.text ("T")]))).secs = [] :=
  ⟨(claim_C10_h5_h6_not_delimiters ⟨("Intro"), [], []⟩ ("h5") [] (nl [.text ("T")])
      (Or.inl rfl)).1,
    (claim_C10_h5_h6_not_delimiters ⟨("Intro"), [], []⟩ ("h5") [] (nl [.text ("T")])
      (Or.inl rfl)).2.1⟩

/-- C3 (amended): the sectioner output is invariant under deleting every
`script`, `style`, `noscript` and `iframe` subtree at any depth (their text
never reaches a heading or a content string), and `nav`, `footer`, `header`
and `form` elements are skipped when they are direct children of the
body. -/
theorem claim_C3_excluded_tags :
    (∀ cs : NodeList, sectionsOfBodyChildren (cleanChildren cs) = sectionsOfBodyChildren cs) ∧
    (∀ (st : SecState) (name : String) (a : List (String × String)) (cs : NodeList),
      (name = ("nav") ∨ name = ("footer") ∨ name = ("header") ∨ name = ("form")) →
      sectionStep st (.elem name a cs) = st) := by
  constructor
  · intro cs
    simp [sectionsOfBodyChildren, cleanChildren_idem]
  · intro st name a cs h
    have h1 : isHeading14 (pyLower name) = false := by
      rcases h with rfl | rfl | rfl | rfl <;> decide
    have h2 : ¬(pyLower name ∈ contentTags) := by
      rcases h with rfl | rfl | rfl | rfl <;> decide
    have h3 : pyLower name ∈ boilerTags := by
      rcases h with rfl | rfl | rfl | rfl <;> decide
    simp [sectionStep, h1, h2, h3]

theorem claim_C3_witness :
    sectionStep ⟨("Intro"), [], []⟩ (.elem ("nav") [] (nl [.text ("menu")])) =
      ⟨("Intro"), [], []⟩ :=
  claim_C3_excluded_tags.2 ⟨("Intro"), [], []⟩ ("nav") [] (nl [.text ("menu")]) (Or.inl rfl)

/-- C3 counterexample: text inside a `nav` nested one level below a direct
child of the body does appear in a section content: the clause
"at any nesting depth" fails for the boilerplate containers. -/
theorem claim_C3_counterexample :
    extract_body_sections docC3 = [⟨("Intro"), ("NAVTEXT")⟩] ∧
      extract_body_sections docC3stripped = [⟨("Intro"), ("")⟩] := by
  constructor <;> decide

/-- C6: extracted links are exactly the `urljoin`-resolved images of the
anchor hrefs that survive the fragment strip, the emptiness check and the
`mailto:`/`tel:`/`javascript:` filter; the output has set semantics (no
duplicates); the two-anchor example keeps `/about` resolved and drops the
mailto link. -/
theorem claim_C6_link_extraction :
    (∀ (doc : NodeList) (base u : String),
        u ∈ extract_links doc base ↔
          ∃ h, h ∈ anchorHrefs doc ∧ cleanHref h ≠ ("") ∧
            nonNavigable (cleanHref h) = false ∧ u = urljoin base (cleanHref h)) ∧
    (∀ (doc : NodeList) (base : String), (extract_links doc base).Nodup) ∧
    extract_links docC6 ("http://x.com") = [("http://x.com/about")] := by
  refine ⟨fun doc base u => ?_, fun doc base => ?_, by decide⟩
  · simp [extract_links, mem_foldl_addLink]
  · exact nodup_foldl_addLink base (anchorHrefs doc) [] List.nodup_nil

theorem claim_C6_witness :
    ("http://x.com/about") ∈ extract_links docC6 ("http://x.com") :=
  (claim_C6_link_extraction.1 docC6 ("http://x.com") ("http://x.com/about")).mpr
    ⟨("/about"), by decide, by decide, by decide, by decide⟩

/-- C1 (amended): a dequeued URL appends a `PageResult` exactly when it
passes the robots check and its fetch succeeds, and then exactly one:
every emitted record belongs to such a URL and is precisely the record
built from the fetched document (carrying its title and sections), record
URLs never repeat, and a concrete allowed-and-fetched run appends exactly
its one record; a URL denied by robots or whose fetch fails is skipped
without any record. -/
theorem claim_C1_records_only_for_fetched_pages :
    (∀ (rp : Option (String → Bool)) (fetch : String → Option NodeList)
      (start_url : String) (max_pages : Nat) (r : PageResult),
      r ∈ crawl_site rp fetch start_url max_pages →
      robotsAllows rp r.url = true ∧
        ∃ doc, fetch r.url = some doc ∧ r = pageRecord r.url doc) ∧
    (∀ (rp : Option (String → Bool)) (fetch : String → Option NodeList)
      (start_url : String) (max_pages : Nat),
      ((crawl_site rp fetch start_url max_pages).map PageResult.url).Nodup) ∧
    crawl_site none (fun _ => some docC4) ("http://x.com") 1 =
      [pageRecord ("http://x.com") docC4] := by
  refine ⟨?_, ?_, ?_⟩
  · intro rp fetch s mp r hr
    simp only [crawl_site] at hr
    exact (crawlLoop_invariant rp fetch (netlocOf s) (schemeOf s ++ ("://") ++ netlocOf s)
      mp [s] [] [] (by simp) (by simp)).1 r hr
  · intro rp fetch s mp
    simp only [crawl_site]
    exact (crawlLoop_invariant rp fetch (netlocOf s) (schemeOf s ++ ("://") ++ netlocOf s)
      mp [s] [] [] (by simp) (by simp)).2
  · simp +decide [crawl_site, crawlLoop, robotsAllows, enqueueLinks, pageRecord,
      extract_links, anchorHrefs]

/-- C1 counterexample against the claim as stated: a robots-denied seed and
a seed whose fetch fails each produce an empty result list — no
`BlockedByRobots` or `Failed` record with empty title and sections is
appended. -/
theorem claim_C1_counterexample :
    crawl_site (some (fun _ => false)) (fun _ => some .nil) ("http://x.com/a") 5 = [] ∧
    crawl_site none (fun _ => none) ("http://x.com/a") 5 = [] := by
  constructor <;> simp [crawl_site, crawlLoop, robotsAllows]

theorem claim_C1_witness :
    robotsAllows none (pageRecord ("http://x.com") NodeList.nil).url = true ∧
      ∃ doc, (fun _ => some NodeList.nil) (pageRecord ("http://x.com") NodeList.nil).url
          = some doc ∧
        pageRecord ("http://x.com") NodeList.nil
          = pageRecord (pageRecord ("http://x.com") NodeList.nil).url doc := by
  apply claim_C1_records_only_for_fetched_pages.1 none (fun _ => some NodeList.nil)
    ("http://x.com") 1
  simp +decide [crawl_site, crawlLoop, robotsAllows, enqueueLinks, pageRecord,
    extract_links, anchorHrefs]

/-- C2 (amended): for every run the result list never exceeds the page
budget and record URLs are pairwise distinct strings (links are enqueued
only after the membership check against queue and visited set); whenever
the seed URL additionally carries no fragment, no two records share a
fragment-stripped URL. -/
theorem claim_C2_budget_and_distinct_urls :
    ∀ (rp : Option (String → Bool)) (fetch : String → Option NodeList)
      (start_url : String) (max_pages : Nat),
      ((crawl_site rp fetch start_url max_pages).length ≤ max_pages ∧
       ((crawl_site rp fetch start_url max_pages).map PageResult.url).Nodup) ∧
      (stripFragment start_url = start_url →
        ((crawl_site rp fetch start_url max_pages).map
          (fun r => stripFragment r.url)).Nodup) := by
  intro rp fetch s mp
  have hnd : ((crawl_site rp fetch s mp).map PageResult.url).Nodup := by
    simp only [crawl_site]
    exact (crawlLoop_invariant rp fetch (netlocOf s) (schemeOf s ++ ("://") ++ netlocOf s)
      mp [s] [] [] (by simp) (by simp)).2
  refine ⟨⟨?_, hnd⟩, ?_⟩
  · simp only [crawl_site]
    exact crawlLoop_length_le rp fetch _ _ mp [s] [] [] (by simp)
  · intro hs
    have hnh : ∀ r ∈ crawl_site rp fetch s mp, stripFragment r.url = r.url := by
      simp only [crawl_site]
      exact crawlLoop_noHash rp fetch (netlocOf s) (schemeOf s ++ ("://") ++ netlocOf s)
        mp [s] [] [] (by intro u hu; rcases List.mem_singleton.mp hu with rfl; exact hs)
        (by simp)
    have : (crawl_site rp fetch s mp).map (fun r => stripFragment r.url) =
        (crawl_site rp fetch s mp).map PageResult.url :=
      List.map_congr_left (fun r hr => hnh r hr)
    rw [this]
    exact hnd

/-- C2 counterexample against the claim as stated: with the
fragment-bearing seed `http://x.com/a#b` whose page links to `/a`, the run
emits two records whose fragment-stripped URLs coincide. -/
theorem claim_C2_counterexample :
    ¬ (((crawl_site none fetchC2 ("http://x.com/a#b") 2).map
        (fun r => stripFragment r.url)).Nodup) := by
  have h : (crawl_site none fetchC2 ("http://x.com/a#b") 2).map
        (fun r => stripFragment r.url)
      = [("http://x.com/a"), ("http://x.com/a")] := by
    simp +decide [crawl_site, crawlLoop, robotsAllows, fetchC2, enqueueLinks, pageRecord]
  rw [h]
  decide

theorem claim_C2_witness :
    stripFragment ("http://x.com") = ("http://x.com") ∧
      ((crawl_site none (fun _ => none) ("http://x.com") 1).map
        (fun r => stripFragment r.url)).Nodup :=
  ⟨by decide,
    (claim_C2_budget_and_distinct_urls none (fun _ => none) ("http://x.com") 1).2
      (by decide)⟩

/-- C9: the crawl resolves relative hrefs against the site root of the seed,
not the page URL: the href `a.html` on `http://x.com/dir/page.html` yields a
crawl of `http://x.com/a.html` (and never `http://x.com/dir/a.html`), while
resolution against the page URL itself would give the latter. -/
theorem claim_C9_resolution_against_site_root :
    (crawl_site none fetchC9 ("http://x.com/") 3).map PageResult.url =
      [("http://x.com/"), ("http://x.com/dir/page.html"), ("http://x.com/a.html")] ∧
    urljoin ("http://x.com") ("a.html") = ("http://x.com/a.html") ∧
    urljoin ("http://x.com/dir/page.html") ("a.html") = ("http://x.com/dir/a.html") := by
  refine ⟨?_, by decide, by decide⟩
  simp +decide [crawl_site, crawlLoop, robotsAllows, fetchC9, enqueueLinks, pageRecord]

end Crawler
